import Mathlib

/-!
Verification of the deep-calcium 1D spike-segmentation pipeline
(`deepcalcium/models/spikes/unet_1d_segmentation.py` and
`deepcalcium/models/spikes/utils.py`) against its natural-language
specification.

Conventions of the embedding:
* Tensors carry rational values (`ℚ`); a 2D array is a `List (List ℚ)`
  (list of rows), a 1D sequence is a `List ℚ`.
* `K.epsilon()` is the fixed constant `1e-7`, embedded exactly as `1/10^7`.
* TensorFlow max pooling with stride 1 and `'same'` padding over a row of
  length `n` produces `n` outputs; output `i` is the maximum of the inputs
  at positions `[i - (k-1)/2, i - (k-1)/2 + (k-1)]` intersected with
  `[0, n-1]` (the total padding `k-1` is split as `(k-1)/2` in front, the
  remainder behind, out-of-range positions do not participate in the max).
  Every call site in the two source files uses stride 1, which is the case
  embedded here.
-/

namespace DeepCalcium

/-- `K.epsilon()`, the Keras fuzz factor: `1e-7`. -/
def epsK : ℚ := 1 / 10000000

/-- A 2D array value (list of rows). -/
abbrev Mat := List (List ℚ)

/-- Stride-1 `'same'`-padding 1D max pooling with window `k` along a row,
the TensorFlow semantics described in the file header.  With `pb = (k-1)/2`,
output `i` is the max of `x[j]` over the in-range `j` with
`i - pb ≤ j ≤ i - pb + (k-1)`; position `i` itself always lies in the
window, so it seeds the fold. -/
def maxpoolSame (k : Nat) (x : List ℚ) : List ℚ :=
  (List.range x.length).map (fun i =>
    (((List.range x.length).filter
        (fun j => i ≤ j + (k - 1) / 2 && j + (k - 1) / 2 ≤ i + (k - 1))).map
      (fun j => x.getD j 0)).foldr max (x.getD i 0))

/-- Source `utils.maxpool1D(x, pool_size, 1, padding='same')`: the 2D array
is reshaped to `(1, rows, cols, 1)` and pooled with `K.pool2d` with window
`(1, pool_size)`; the row axis has window 1, so each row is pooled
independently along the columns.  All call sites in the source use
`pool_strides = 1`. -/
def maxpool1D (pool_size : Nat) (x : Mat) : Mat :=
  x.map (maxpoolSame pool_size)

/-- Length of one-dimensional `'same'` pooling output equals input length. -/
theorem maxpoolSame_length (k : Nat) (x : List ℚ) :
    (maxpoolSame k x).length = x.length := by
  simp [maxpoolSame]

/-!
## The batch generator's one-time margin dilation (`_batch_gen`, first block)

The source groups the label sequences by length, stacks each group with
`np.vstack` (which copies), pools the stack with
`K.pool2d(x, (1, margin + 1), padding='same')` — note the window is
`margin + 1`, and the row axis of the window is 1 so rows are pooled
independently — and writes the pooled rows back over the corresponding
list slots.
-/

/-- One group step of the dilation: every sequence of length `l` is replaced
by its pooled copy (window `margin + 1`, stride 1, `'same'`); other
sequences are untouched.  This is the net effect of
`idxs, = np.where(lens == l); x = np.vstack(...); x = K.pool2d(x, (1, margin+1),
'same'); spikes[idxs[i]] = x[i]`, because pooling with a window of height 1
pools each stacked row independently. -/
def dilateGroup (spikes : Mat) (l margin : Nat) : Mat :=
  spikes.map (fun r => if r.length = l then maxpoolSame (margin + 1) r else r)

/-- The distinct sequence lengths (`np.unique(lens)`); order does not
matter for the net effect, only that each length occurs once. -/
def uniqueLens (spikes : Mat) : List Nat :=
  (spikes.map List.length).dedup

/-- The whole one-time dilation loop of `_batch_gen`: one `dilateGroup`
pass per distinct length. -/
def dilateSpikes (spikes : Mat) (margin : Nat) : Mat :=
  (uniqueLens spikes).foldl (fun acc l => dilateGroup acc l margin) spikes

theorem foldl_dilateGroup (margin : Nat) :
    ∀ (L : List Nat), L.Nodup → ∀ (s : Mat),
      L.foldl (fun acc l => dilateGroup acc l margin) s =
        s.map (fun r => if r.length ∈ L then maxpoolSame (margin + 1) r else r) := by
  intro L
  induction L with
  | nil =>
      intro _ s
      simp
  | cons l T ih =>
      intro hnd s
      have hlT : l ∉ T := (List.nodup_cons.mp hnd).1
      have hT : T.Nodup := (List.nodup_cons.mp hnd).2
      have step : List.foldl (fun acc x => dilateGroup acc x margin) s (l :: T) =
          T.foldl (fun acc x => dilateGroup acc x margin) (dilateGroup s l margin) := rfl
      rw [step, ih hT]
      rw [dilateGroup, List.map_map]
      apply List.map_congr_left
      intro r _
      by_cases hr : r.length = l
      · have hpl : (maxpoolSame (margin + 1) r).length = l := by
          rw [maxpoolSame_length, hr]
        simp [Function.comp, hr, hpl, hlT]
      · simp only [Function.comp]
        rw [if_neg hr]
        by_cases hrT : r.length ∈ T
        · simp [hrT]
        · have : r.length ∉ l :: T := by
            intro hmem
            rcases List.mem_cons.mp hmem with h | h
            · exact hr h
            · exact hrT h
          simp [hrT, this]

/-- C1 (amended): the one-time dilation performed by the batch generator
replaces every label sequence by its stride-1 `'same'` max-pool with window
`margin + 1` (not `2*margin + 1`) along the time axis. -/
theorem c1_amended (spikes : Mat) (margin : Nat) :
    dilateSpikes spikes margin = spikes.map (maxpoolSame (margin + 1)) := by
  rw [dilateSpikes, foldl_dilateGroup margin (uniqueLens spikes)
    (List.nodup_dedup _)]
  apply List.map_congr_left
  intro r hr
  have : r.length ∈ uniqueLens spikes := by
    rw [uniqueLens, List.mem_dedup]
    exact List.mem_map_of_mem List.length hr
  simp [this]

/-- C1 (counterexample): for the label sequence `[0,0,1,0,0]` with
`margin = 1` the generator's dilation produces `[0,1,1,0,0]` (window
`margin + 1 = 2`, padded on the right), not the `[0,1,1,1,0]` that a
max-pool with window `2*margin + 1 = 3` would give. -/
theorem c1_counterexample :
    dilateSpikes [[0, 0, 1, 0, 0]] 1 = [[0, 1, 1, 0, 0]] ∧
      ([[0, 1, 1, 0, 0]] : Mat) ≠ [[0, 1, 1, 1, 0]] := by
  constructor
  · decide
  · decide

/-!
## Window sampling (`_batch_gen`, inner loop)

For each batch slot the source draws
`x0 = rng.randint(0, len(spikes[idx]) - shape[0])` — NumPy's `randint(low,
high)` draws from the half-open range `[low, high)` — sets `x1 = x0 +
shape[0]`, and fills `tb[bidx] = traces[idx][x0:x1]`,
`sb[bidx] = spikes[idx][x0:x1]`.
-/

/-- Support of `rng.randint(0, L - w)`: the offsets the generator can draw
for a source sequence of length `L` and window length `w`.  NumPy's
`randint` excludes the upper bound (and raises when `L - w ≤ 0`, so the
support is empty there). -/
def offsetSupport (L w : Nat) : List Nat := List.range (L - w)

/-- One batch slot: the trace and label windows `traces[idx][x0:x0+w]` and
`spikes[idx][x0:x0+w]`, both sliced at the same offset `x0`. -/
def genSlot (t s : List ℚ) (x0 w : Nat) : List ℚ × List ℚ :=
  ((t.drop x0).take w, (s.drop x0).take w)

/-- C2 (counterexample): the offset `L - shape[0]` is claimed to be a
possible draw, but `randint`'s upper bound is exclusive; for `L = 5`,
`shape[0] = 3` the offset `2` is never drawn. -/
theorem c2_counterexample : (5 - 3 : Nat) ∉ offsetSupport 5 3 := by decide

/-- C2 (amended): every drawable start offset lies in the half-open range
`[0, L - shape[0])` (the upper endpoint `L - shape[0]` itself is excluded),
and the trace slice and the label slice are both taken at
`[offset, offset + shape[0])` with the same offset, each of length
`shape[0]`. -/
theorem c2_amended (L w x0 : Nat) (t s : List ℚ)
    (ht : t.length = L) (hs : s.length = L) (hx : x0 ∈ offsetSupport L w) :
    x0 < L - w ∧
    (genSlot t s x0 w).1.length = w ∧
    (genSlot t s x0 w).2.length = w ∧
    (∀ j, j < w →
      (genSlot t s x0 w).1.getD j 0 = t.getD (x0 + j) 0 ∧
      (genSlot t s x0 w).2.getD j 0 = s.getD (x0 + j) 0) := by
  have hx' : x0 < L - w := List.mem_range.mp hx
  have hxw : x0 + w ≤ L := by omega
  refine ⟨hx', ?_, ?_, ?_⟩
  · simp only [genSlot, List.length_take, List.length_drop, ht]
    omega
  · simp only [genSlot, List.length_take, List.length_drop, hs]
    omega
  · intro j hj
    constructor
    · simp only [genSlot, List.getD_eq_getElem?_getD,
        List.getElem?_take_of_lt hj, List.getElem?_drop]
    · simp only [genSlot, List.getD_eq_getElem?_getD,
        List.getElem?_take_of_lt hj, List.getElem?_drop]

/-- C2 witness: the amended statement instantiated at `L = 5`, `w = 3`,
`x0 = 1` on concrete windows. -/
theorem c2_witness :
    (1 : Nat) ∈ offsetSupport 5 3 ∧
    (1 < 5 - 3 ∧
     (genSlot [0, 1, 2, 3, 4] [5, 6, 7, 8, 9] 1 3).1.length = 3 ∧
     (genSlot [0, 1, 2, 3, 4] [5, 6, 7, 8, 9] 1 3).2.length = 3 ∧
     (∀ j, j < 3 →
       (genSlot [0, 1, 2, 3, 4] [5, 6, 7, 8, 9] 1 3).1.getD j 0 =
         ([0, 1, 2, 3, 4] : List ℚ).getD (1 + j) 0 ∧
       (genSlot [0, 1, 2, 3, 4] [5, 6, 7, 8, 9] 1 3).2.getD j 0 =
         ([5, 6, 7, 8, 9] : List ℚ).getD (1 + j) 0)) :=
  ⟨by decide,
   c2_amended 5 3 1 [0, 1, 2, 3, 4] [5, 6, 7, 8, 9] rfl rfl (by decide)⟩

/-!
## Trace-index cycling (`_batch_gen`, `while True` loop)

Each pass of the `while True` loop draws one random permutation
`rng.choice(idxs, len(idxs), replace=False)` and wraps it in
`itertools.cycle`, which repeats that same permutation without ever
reshuffling; the pass then consumes `nb_steps * batch_size` draws
(`nb_steps` batches of `batch_size` slots, one `next(cidxs)` per slot)
before the loop restarts and a fresh permutation is drawn.
-/

/-- The `t`-th trace index (0-based over the unbounded draw sequence)
produced by the generator, given the permutation `perms p` chosen by pass
`p` of the `while True` loop: pass length is `nsteps * bsz` draws and
within a pass the cycled permutation gives draw `q` the entry
`perm[q % n]`. -/
def genDraw (perms : Nat → List Nat) (n nsteps bsz t : Nat) : Nat :=
  (perms (t / (nsteps * bsz))).getD ((t % (nsteps * bsz)) % n) 0

/-- A perfectly legal pair of random permutations for two traces: the first
pass shuffles to `[0, 1]`, the second to `[1, 0]`. -/
def exPerms : Nat → List Nat := fun p => if p = 0 then [0, 1] else [1, 0]

/-- C4 (counterexample): with `n = 2` traces, `nb_steps = 1` and
`batch_size = 2`, each `while` pass consumes exactly 2 draws; the two
consecutive draws at `t = 1, 2` span the pass restart and both yield trace
index 1, so they are not a permutation of `{0, 1}` — the exactly-once
property fails for windows that span the restart, even though every
per-pass permutation is valid. -/
theorem c4_counterexample :
    (exPerms 0).Perm (List.range 2) ∧ (exPerms 1).Perm (List.range 2) ∧
      ¬ ([genDraw exPerms 2 1 2 1, genDraw exPerms 2 1 2 2].Perm
          (List.range 2)) := by
  refine ⟨by decide, by decide, by decide⟩

theorem map_getD_range {α : Type} (l : List α) (d : α) :
    (List.range l.length).map (fun i => l.getD i d) = l := by
  induction l with
  | nil => simp
  | cons a tl ih =>
      have : List.range (tl.length + 1) =
          0 :: (List.range tl.length).map Nat.succ := List.range_succ_eq_map _
      simp only [List.length_cons, this, List.map_cons, List.map_map]
      refine congrArg (a :: ·) ?_
      calc ((List.range tl.length).map ((fun i => (a :: tl).getD i d) ∘ Nat.succ))
          = (List.range tl.length).map (fun i => tl.getD i d) := by
            apply List.map_congr_left
            intro i _
            rfl
        _ = tl := ih

theorem getD_rotate {α : Type} (l : List α) (k i : Nat) (d : α)
    (h : i < l.length) :
    (l.rotate k).getD i d = l.getD ((i + k) % l.length) d := by
  have h1 : i < (l.rotate k).length := by
    rw [List.length_rotate]
    exact h
  have hl0 : 0 < l.length := lt_of_le_of_lt (Nat.zero_le _) h
  have h2 : (i + k) % l.length < l.length := Nat.mod_lt _ hl0
  rw [List.getD_eq_getElem _ d h1, List.getD_eq_getElem _ d h2,
    List.getElem_rotate]

/-- C4 (amended): within a single pass of the `while True` loop the draw
sequence is the pass's permutation repeated cyclically with period `n`,
so any `n` consecutive draws contained in one pass (the window
`[t, t + n)` with `t % (nb_steps * batch_size) + n ≤
nb_steps * batch_size`) yield each trace index exactly once; the
permutation is replaced only when the pass restarts (after
`nb_steps * batch_size` draws), not on cycle exhaustion, and the
exactly-once property can fail only for windows spanning a restart. -/
theorem c4_amended (perms : Nat → List Nat) (n nsteps bsz t : Nat)
    (hperm : (perms (t / (nsteps * bsz))).Perm (List.range n))
    (hin : t % (nsteps * bsz) + n ≤ nsteps * bsz) :
    ((List.range n).map (fun i => genDraw perms n nsteps bsz (t + i))).Perm
      (List.range n) := by
  rcases Nat.eq_zero_or_pos n with hn | hn
  · subst hn
    simp
  set P := nsteps * bsz with hPdef
  have hPpos : 0 < P :=
    lt_of_lt_of_le hn (le_trans (Nat.le_add_left n (t % P)) hin)
  set perm := perms (t / P) with hpermdef
  have hlen : perm.length = n := by
    simpa using hperm.length_eq
  have hdraw : ∀ i, i < n →
      genDraw perms n nsteps bsz (t + i) =
        perm.getD ((i + t % P) % n) 0 := by
    intro i hi
    have hlt : t % P + i < P :=
      Nat.lt_of_lt_of_le (Nat.add_lt_add_left hi _) hin
    have hdm : t + i = t / P * P + (t % P + i) := by
      conv_lhs => rw [← Nat.div_add_mod t P]
      ring
    have hdiv : (t + i) / P = t / P := by
      rw [hdm, Nat.mul_comm (t / P) P, Nat.mul_add_div hPpos,
        Nat.div_eq_of_lt hlt, Nat.add_zero]
    have hmod : (t + i) % P = t % P + i := by
      rw [hdm, Nat.mul_comm (t / P) P, Nat.mul_add_mod]
      exact Nat.mod_eq_of_lt hlt
    rw [genDraw, hdiv, hmod, Nat.add_comm (t % P) i]
  have hmap : ((List.range n).map (fun i => genDraw perms n nsteps bsz (t + i))) =
      perm.rotate (t % P) := by
    apply List.ext_getElem
    · simp [List.length_rotate, hlen]
    · intro i h1 h2
      have hi : i < n := by simpa using h1
      have hrot : i < (perm.rotate (t % P)).length := h2
      rw [List.getElem_map, List.getElem_range, hdraw i hi,
        ← List.getD_eq_getElem (perm.rotate (t % P)) 0 hrot,
        getD_rotate perm (t % P) i 0 (by rw [hlen]; exact hi), hlen]
  rw [hmap]
  exact (perm.rotate_perm (t % P)).trans hperm

/-- C4 witness: the amended statement at `n = 2`, `nb_steps = 2`,
`batch_size = 2`, for the unaligned in-pass window starting at draw 1. -/
theorem c4_witness :
    ((List.range 2).map
      (fun i => genDraw (fun _ => [1, 0]) 2 2 2 (1 + i))).Perm
      (List.range 2) :=
  c4_amended (fun _ => [1, 0]) 2 2 2 1 (by decide) (by decide)

/-!
## Cross-validation fold partition (`fit`, `cross_validate` branch)

The source shuffles once
(`idxs = rng.choice(np.arange(len(traces)), len(traces), replace=0)`, a
random permutation of `0..N-1`), sets `fsz = int(len(idxs) / nb_folds)`,
and takes `fold_idxs = [idxs[fsz*n : fsz*n + fsz] for n in range(nb_folds)]`.
For fold `val_idx` the validation indices are the comprehension over the
folds with `i == val_idx` and the training indices the comprehension with
`i != val_idx`; their disjointness is asserted.
-/

/-- One fold: the contiguous chunk `idxs[fsz*n : fsz*n + fsz]` of the
shuffled permutation. -/
def foldIdxs (idxs : List Nat) (fsz n : Nat) : List Nat :=
  (idxs.drop (fsz * n)).take fsz

/-- Training indices of fold `v`:
`[idx for i, fold in enumerate(fold_idxs) if i != val_idx for idx in fold]`. -/
def trainIdxs (idxs : List Nat) (k fsz v : Nat) : List Nat :=
  ((List.range k).filter (fun i => i != v)).flatMap (fun i => foldIdxs idxs fsz i)

/-- Validation indices of fold `v`:
`[idx for i, fold in enumerate(fold_idxs) if i == val_idx for idx in fold]`. -/
def valIdxs (idxs : List Nat) (k fsz v : Nat) : List Nat :=
  ((List.range k).filter (fun i => i == v)).flatMap (fun i => foldIdxs idxs fsz i)

theorem range_filter_beq (v : Nat) :
    ∀ k : Nat, v < k → (List.range k).filter (fun i => i == v) = [v] := by
  intro k
  induction k with
  | zero => omega
  | succ k ih =>
      intro hv
      rw [List.range_succ, List.filter_append]
      by_cases h : v = k
      · subst h
        have h1 : (List.range v).filter (fun i => i == v) = [] := by
          rw [List.filter_eq_nil_iff]
          intro a ha
          have : a < v := List.mem_range.mp ha
          simp [Nat.ne_of_lt this]
        rw [h1]
        simp
      · have hvk : v < k := by omega
        rw [ih hvk]
        have h2 : [k].filter (fun i => i == v) = [] := by
          simp [Ne.symm h]
        rw [h2, List.append_nil]

theorem flatMap_foldIdxs (idxs : List Nat) (fsz : Nat) :
    ∀ k : Nat,
      (List.range k).flatMap (fun n => foldIdxs idxs fsz n) =
        idxs.take (fsz * k) := by
  intro k
  induction k with
  | zero => simp
  | succ k ih =>
      rw [List.range_succ, List.flatMap_append, ih]
      have : [k].flatMap (fun n => foldIdxs idxs fsz n) = foldIdxs idxs fsz k := by
        simp
      rw [this, foldIdxs, ← List.take_add]
      ring_nf

/-- C7: for a shuffled permutation `idxs` of `0..N-1` and `nb_folds = k ≥ 2`
with `fsz = N / k`: every fold is a chunk of exactly `fsz` indices; the
validation comprehension for fold `v` is exactly fold `v`; each fold's
validation indices are disjoint from its complementary training indices;
the folds concatenated in order are the first `fsz * k` entries of the
shuffled permutation, so their union misses only the `N % k ≤ k - 1`
trailing remainder elements. -/
theorem c7_folds (N k : Nat) (idxs : List Nat)
    (hperm : idxs.Perm (List.range N)) (hk : 2 ≤ k) :
    (∀ n, n < k → (foldIdxs idxs (N / k) n).length = N / k) ∧
    (∀ v, v < k → valIdxs idxs k (N / k) v = foldIdxs idxs (N / k) v) ∧
    (∀ v, v < k → ∀ x, x ∈ trainIdxs idxs k (N / k) v →
      x ∉ valIdxs idxs k (N / k) v) ∧
    ((List.range k).flatMap (fun n => foldIdxs idxs (N / k) n) =
      idxs.take (N / k * k)) ∧
    (idxs.length - N / k * k = N % k ∧ N % k < k) := by
  have hlen : idxs.length = N := by
    simpa using hperm.length_eq
  have hnd : idxs.Nodup := hperm.nodup_iff.mpr (List.nodup_range N)
  have hfk : N / k * k ≤ N := Nat.div_mul_le_self N k
  have hval : ∀ v, v < k → valIdxs idxs k (N / k) v = foldIdxs idxs (N / k) v := by
    intro v hv
    rw [valIdxs, range_filter_beq v k hv]
    simp
  refine ⟨?_, hval, ?_, flatMap_foldIdxs idxs (N / k) k, ?_, ?_⟩
  · intro n hn
    have hbound : N / k * n + N / k ≤ N := by
      have h1 : N / k * (n + 1) ≤ N / k * k :=
        Nat.mul_le_mul_left _ (by omega)
      have h2 : N / k * (n + 1) = N / k * n + N / k := by ring
      omega
    rw [foldIdxs, List.length_take, List.length_drop, hlen]
    omega
  · -- disjointness of training and validation indices
    have hjoin : ((List.range k).map (fun n => foldIdxs idxs (N / k) n)).flatten.Nodup := by
      have : ((List.range k).map (fun n => foldIdxs idxs (N / k) n)).flatten =
          (List.range k).flatMap (fun n => foldIdxs idxs (N / k) n) := by
        rw [List.flatMap_def]
      rw [this, flatMap_foldIdxs]
      exact hnd.sublist (List.take_sublist _ _)
    have hpw : List.Pairwise List.Disjoint
        ((List.range k).map (fun n => foldIdxs idxs (N / k) n)) :=
      (List.nodup_flatten.mp hjoin).2
    have hdisj : ∀ i j, i < k → j < k → i ≠ j →
        List.Disjoint (foldIdxs idxs (N / k) i) (foldIdxs idxs (N / k) j) := by
      intro i j hi hj hij
      have hget := List.pairwise_iff_getElem.mp hpw
      rcases Nat.lt_or_ge i j with hlt | hge
      · have := hget i j (by simpa using hi) (by simpa using hj) hlt
        simpa using this
      · have hjl : j < i := by omega
        have := hget j i (by simpa using hj) (by simpa using hi) hjl
        exact (by simpa using this : List.Disjoint _ _).symm
    intro v hv x hx
    rw [hval v hv]
    rcases List.mem_flatMap.mp hx with ⟨i, hi, hxi⟩
    have hik : i < k := List.mem_range.mp (List.mem_filter.mp hi).1
    have hiv : i ≠ v := by
      have := (List.mem_filter.mp hi).2
      simpa using this
    exact fun hxv => hdisj i v hik hv hiv hxi hxv
  · rw [hlen]
    have h := Nat.mod_add_div' N k
    omega
  · exact Nat.mod_lt _ (by omega)

/-- C7 witness: 100 traces and 5 folds on a concrete shuffle — five folds
of 20 indices each, validation disjoint from training, union covering all
100 shuffled indices. -/
theorem c7_folds_witness :
    (∀ n, n < 5 → (foldIdxs (List.range 100) (100 / 5) n).length = 100 / 5) ∧
    (∀ v, v < 5 → valIdxs (List.range 100) 5 (100 / 5) v =
      foldIdxs (List.range 100) (100 / 5) v) ∧
    (∀ v, v < 5 → ∀ x, x ∈ trainIdxs (List.range 100) 5 (100 / 5) v →
      x ∉ valIdxs (List.range 100) 5 (100 / 5) v) ∧
    ((List.range 5).flatMap (fun n => foldIdxs (List.range 100) (100 / 5) n) =
      (List.range 100).take (100 / 5 * 5)) ∧
    ((List.range 100).length - 100 / 5 * 5 = 100 % 5 ∧ 100 % 5 < 5) :=
  c7_folds 100 5 (List.range 100) (List.Perm.refl _) (by decide)

/-!
## Precondition checks of `fit`

`fit` runs, in order: `assert len(shape) == 1`,
`assert val_type in ['random_split', 'cross_validate']`,
`assert nb_folds > 1`, `assert prop_trn + prop_val == 1.` — and only then
loads the data (`traces = [t for p in dataset_paths for t in
self.dataset_traces_func(p)]` followed by the same comprehension for
spikes).  The embedding records the externally visible effects (dataset
loads) that `fit` performs up to and including the data-loading step; a
failing assert returns an `Except.error` with an empty effect list.
-/

/-- Parameters of `fit` that its precondition asserts inspect. -/
structure FitParams where
  shape : List Nat
  val_type : String
  nb_folds : Nat
  prop_trn : ℚ
  prop_val : ℚ

/-- An externally visible effect of `fit`'s prologue: loading one
dataset's traces or spikes. -/
inductive FitEvent where
  | loadTraces (path : String)
  | loadSpikes (path : String)
deriving DecidableEq

/-- The prologue of `fit`: the four asserts in source order, then the two
loading comprehensions.  Returns the outcome together with the list of
load effects performed. -/
def fitRun (p : FitParams) (paths : List String) :
    Except String Unit × List FitEvent :=
  if p.shape.length ≠ 1 then
    (Except.error "AssertionError: len(shape) == 1", [])
  else if ¬(p.val_type = "random_split" ∨ p.val_type = "cross_validate") then
    (Except.error "AssertionError: val_type", [])
  else if ¬(1 < p.nb_folds) then
    (Except.error "AssertionError: nb_folds > 1", [])
  else if p.prop_trn + p.prop_val ≠ 1 then
    (Except.error "AssertionError: prop_trn + prop_val == 1.", [])
  else
    (Except.ok (), paths.map FitEvent.loadTraces ++ paths.map FitEvent.loadSpikes)

/-- C8: a violated precondition (malformed `shape`, invalid
`val_type`, `nb_folds ≤ 1`, or `prop_trn + prop_val ≠ 1`) makes `fit`
fail by assertion before any dataset trace or spike data is loaded, with
no other effect. -/
theorem c8_preconditions (p : FitParams) (paths : List String)
    (hviol : p.shape.length ≠ 1 ∨
      ¬(p.val_type = "random_split" ∨ p.val_type = "cross_validate") ∨
      p.nb_folds ≤ 1 ∨ p.prop_trn + p.prop_val ≠ 1) :
    (∃ msg, (fitRun p paths).1 = Except.error msg) ∧
      (fitRun p paths).2 = [] := by
  unfold fitRun
  by_cases h1 : p.shape.length ≠ 1
  · rw [if_pos h1]
    exact ⟨⟨_, rfl⟩, rfl⟩
  rw [if_neg h1]
  by_cases h2 : ¬(p.val_type = "random_split" ∨ p.val_type = "cross_validate")
  · rw [if_pos h2]
    exact ⟨⟨_, rfl⟩, rfl⟩
  rw [if_neg h2]
  by_cases h3 : ¬(1 < p.nb_folds)
  · rw [if_pos h3]
    exact ⟨⟨_, rfl⟩, rfl⟩
  rw [if_neg h3]
  by_cases h4 : p.prop_trn + p.prop_val ≠ 1
  · rw [if_pos h4]
    exact ⟨⟨_, rfl⟩, rfl⟩
  exfalso
  push_neg at h2 h3 h4
  rcases hviol with h | h | h | h
  · exact h1 h
  · exact h h2
  · omega
  · exact h h4

/-- C8 witness: `nb_folds = 1` fails the assert with no load performed. -/
theorem c8_preconditions_witness :
    (∃ msg,
      (fitRun ⟨[4096], "random_split", 1, 4/5, 1/5⟩ ["d1.hdf5"]).1 =
        Except.error msg) ∧
    (fitRun ⟨[4096], "random_split", 1, 4/5, 1/5⟩ ["d1.hdf5"]).2 = [] :=
  c8_preconditions ⟨[4096], "random_split", 1, 4/5, 1/5⟩ ["d1.hdf5"]
    (Or.inr (Or.inr (Or.inl (by norm_num))))

/-!
## `predict`

For each dataset path, in order, `predict` appends `attrs['name']` to
`names_all`, loads the traces, rebuilds the model for that dataset's trace
length, runs a forward pass producing per-frame probabilities, and appends
`(spikes_pred > threshold).astype(np.uint8)` to `spikes_pred_all`; it
returns `(spikes_pred_all, names_all)`.  The external collaborators
(attribute lookup, trace loading, the network forward pass) are abstracted
as functions. -/

/-- External collaborators of `predict`: dataset-name lookup, trace
loading, and the loaded model's forward pass (probabilities in `[0,1]`,
though nothing below needs that bound). -/
structure PredictEnv where
  attrsName : String → String
  traces : String → Mat
  forward : Mat → Mat

/-- One dataset's binary prediction:
`(model.predict(traces) > threshold).astype(np.uint8)` — elementwise
strict comparison against the threshold. -/
def predictOne (env : PredictEnv) (threshold : ℚ) (p : String) :
    List (List Nat) :=
  (env.forward (env.traces p)).map
    (fun row => row.map (fun v => if threshold < v then 1 else 0))

/-- The `predict` loop: one prediction matrix and one name per dataset
path, in path order. -/
def predict (env : PredictEnv) (paths : List String) (threshold : ℚ) :
    List (List (List Nat)) × List String :=
  (paths.map (fun p => predictOne env threshold p),
   paths.map (fun p => env.attrsName p))

/-- C10: `predict` returns two lists of the same length as the input path
list whose `i`-th entries are derived from the `i`-th path; every element
of every prediction array is 0 or 1; an element is 1 exactly when the
predicted probability strictly exceeds the threshold, so a probability
equal to the threshold yields 0. -/
theorem c10_predict (env : PredictEnv) (paths : List String) (threshold : ℚ) :
    ((predict env paths threshold).1.length = paths.length) ∧
    ((predict env paths threshold).2.length = paths.length) ∧
    (∀ i, i < paths.length →
      (predict env paths threshold).1.getD i [] =
        predictOne env threshold (paths.getD i "") ∧
      (predict env paths threshold).2.getD i "" =
        env.attrsName (paths.getD i "")) ∧
    (∀ p : String, ∀ r ∈ predictOne env threshold p, ∀ v ∈ r,
      v = 0 ∨ v = 1) ∧
    (∀ p : String, ∀ i j : Nat,
      i < (env.forward (env.traces p)).length →
      j < ((env.forward (env.traces p)).getD i []).length →
      ((((predictOne env threshold p).getD i []).getD j 0 = 1 ↔
          threshold < ((env.forward (env.traces p)).getD i []).getD j 0) ∧
        (((env.forward (env.traces p)).getD i []).getD j 0 = threshold →
          ((predictOne env threshold p).getD i []).getD j 0 = 0))) := by
  refine ⟨by simp [predict], by simp [predict], ?_, ?_, ?_⟩
  · intro i hi
    constructor
    · simp only [predict, List.getD_eq_getElem?_getD, List.getElem?_map,
        List.getElem?_eq_getElem hi]
      rfl
    · simp only [predict, List.getD_eq_getElem?_getD, List.getElem?_map,
        List.getElem?_eq_getElem hi]
      rfl
  · intro p r hr v hv
    rcases List.mem_map.mp hr with ⟨row, _, hrow⟩
    subst hrow
    rcases List.mem_map.mp hv with ⟨w, _, hw⟩
    subst hw
    by_cases hc : threshold < w
    · right; simp [hc]
    · left; simp [hc]
  · intro p i j hi hj
    have hrow : (env.forward (env.traces p)).getD i [] =
        (env.forward (env.traces p))[i] := by
      simp [List.getD_eq_getElem?_getD, List.getElem?_eq_getElem hi]
    have hj' : j < (env.forward (env.traces p))[i].length := by
      rw [hrow] at hj
      exact hj
    have hval : ((predictOne env threshold p).getD i []).getD j 0 =
        (if threshold < ((env.forward (env.traces p))[i]).getD j 0 then 1 else 0) := by
      simp only [predictOne, List.getD_eq_getElem?_getD, List.getElem?_map,
        List.getElem?_eq_getElem hi, List.getElem?_eq_getElem hj',
        Option.map_some', Option.getD_some]
    rw [hrow, hval]
    constructor
    · by_cases hc : threshold < (env.forward (env.traces p))[i].getD j 0
      · simp [hc]
      · simp [hc]
    · intro heq
      rw [heq]
      simp

/-- C10 witness: one path, identity forward pass, a probability exactly at
the threshold — the instantiated statement, in particular the boundary
case yielding 0. -/
theorem c10_predict_witness :
    ((predict ⟨fun s => s, fun _ => [[1/2]], fun m => m⟩ ["a"] (1/2)).1.length = 1) ∧
    ((predict ⟨fun s => s, fun _ => [[1/2]], fun m => m⟩ ["a"] (1/2)).2.length = 1) ∧
    (∀ i, i < (["a"] : List String).length →
      (predict ⟨fun s => s, fun _ => [[1/2]], fun m => m⟩ ["a"] (1/2)).1.getD i [] =
        predictOne ⟨fun s => s, fun _ => [[1/2]], fun m => m⟩ (1/2)
          ((["a"] : List String).getD i "") ∧
      (predict ⟨fun s => s, fun _ => [[1/2]], fun m => m⟩ ["a"] (1/2)).2.getD i "" =
        PredictEnv.attrsName ⟨fun s => s, fun _ => [[1/2]], fun m => m⟩
          ((["a"] : List String).getD i "")) ∧
    (∀ p : String, ∀ r ∈ predictOne ⟨fun s => s, fun _ => [[1/2]], fun m => m⟩ (1/2) p,
      ∀ v ∈ r, v = 0 ∨ v = 1) ∧
    (∀ p : String, ∀ i j : Nat,
      i < (PredictEnv.forward ⟨fun s => s, fun _ => [[1/2]], fun m => m⟩
            (PredictEnv.traces ⟨fun s => s, fun _ => [[1/2]], fun m => m⟩ p)).length →
      j < ((PredictEnv.forward ⟨fun s => s, fun _ => [[1/2]], fun m => m⟩
            (PredictEnv.traces ⟨fun s => s, fun _ => [[1/2]], fun m => m⟩ p)).getD i []).length →
      ((((predictOne ⟨fun s => s, fun _ => [[1/2]], fun m => m⟩ (1/2) p).getD i []).getD j 0 = 1 ↔
          (1/2 : ℚ) < ((PredictEnv.forward ⟨fun s => s, fun _ => [[1/2]], fun m => m⟩
            (PredictEnv.traces ⟨fun s => s, fun _ => [[1/2]], fun m => m⟩ p)).getD i []).getD j 0) ∧
        (((PredictEnv.forward ⟨fun s => s, fun _ => [[1/2]], fun m => m⟩
            (PredictEnv.traces ⟨fun s => s, fun _ => [[1/2]], fun m => m⟩ p)).getD i []).getD j 0 = 1/2 →
          ((predictOne ⟨fun s => s, fun _ => [[1/2]], fun m => m⟩ (1/2) p).getD i []).getD j 0 = 0))) :=
  c10_predict ⟨fun s => s, fun _ => [[1/2]], fun m => m⟩ ["a"] (1/2)

/-!
## Frame effect of the generator's dilation (`_batch_gen` vs. `fit`)

`fit` loads `spikes` once; `_fit_single` builds per-fold lists
`sp_trn = [spikes[i] for i in idxs_trn]` and `sp_val = [...]` whose slots
alias the same label arrays.  The generator's dilation block copies the
grouped rows (`np.vstack` copies) and pools the copy, then executes
`spikes[idxs[i]] = x[i]` — rebinding slots of the list object it was
passed to freshly created pooled arrays.  No pre-existing array object is
ever written.  The embedding gives every allocated array a cell in a heap
indexed by object identity; lists hold cell identifiers. -/

/-- Store of allocated array objects: `heap` maps an object identifier to
its contents, identifiers below `next` are allocated. -/
structure DilState where
  heap : Nat → List ℚ
  next : Nat

/-- The generator's one-time dilation, slot by slot: for each slot the
pooled copy of the referenced array is a fresh object
(`np.vstack` + `K.pool2d` create new arrays) and the slot is rebound to it
(`spikes[idxs[i]] = x[i]`); the referenced arrays themselves are never
written.  Returns the state after the allocations together with the
generator's rebound list of references. -/
def dilateAlloc (st : DilState) (ids : List Nat) (margin : Nat) :
    DilState × List Nat :=
  match ids with
  | [] => (st, [])
  | id :: rest =>
      let st' : DilState :=
        ⟨Function.update st.heap st.next (maxpoolSame (margin + 1) (st.heap id)),
         st.next + 1⟩
      let r := dilateAlloc st' rest margin
      (r.1, st.next :: r.2)

theorem dilateAlloc_next_le (margin : Nat) :
    ∀ (ids : List Nat) (st : DilState),
      st.next ≤ (dilateAlloc st ids margin).1.next := by
  intro ids
  induction ids with
  | nil => intro st; exact le_refl _
  | cons id rest ih =>
      intro st
      have h := ih ⟨Function.update st.heap st.next
        (maxpoolSame (margin + 1) (st.heap id)), st.next + 1⟩
      simp only [dilateAlloc] at h ⊢
      omega

theorem dilateAlloc_frame (margin : Nat) :
    ∀ (ids : List Nat) (st : DilState) (a : Nat), a < st.next →
      (dilateAlloc st ids margin).1.heap a = st.heap a := by
  intro ids
  induction ids with
  | nil => intro st a _; rfl
  | cons id rest ih =>
      intro st a ha
      have h := ih ⟨Function.update st.heap st.next
        (maxpoolSame (margin + 1) (st.heap id)), st.next + 1⟩ a (by simp; omega)
      simp only [dilateAlloc] at h ⊢
      rw [h]
      exact Function.update_noteq (by omega) _ _

theorem dilateAlloc_contents (margin : Nat) :
    ∀ (ids : List Nat) (st : DilState), (∀ id ∈ ids, id < st.next) →
      ((dilateAlloc st ids margin).2).map (dilateAlloc st ids margin).1.heap =
        ids.map (fun id => maxpoolSame (margin + 1) (st.heap id)) := by
  intro ids
  induction ids with
  | nil => intro st _; rfl
  | cons id rest ih =>
      intro st hv
      have hid : id < st.next := hv id (List.mem_cons_self _ _)
      set st' : DilState := ⟨Function.update st.heap st.next
        (maxpoolSame (margin + 1) (st.heap id)), st.next + 1⟩ with hst'
      have hv' : ∀ i ∈ rest, i < st'.next := by
        intro i hi
        have := hv i (List.mem_cons_of_mem _ hi)
        simp only [hst']
        omega
      have hrec := ih st' hv'
      have hhead : (dilateAlloc st' rest margin).1.heap st.next =
          maxpoolSame (margin + 1) (st.heap id) := by
        have := dilateAlloc_frame margin rest st' st.next (by simp [hst'])
        rw [this]
        simp [hst']
      have htail : rest.map (fun i => maxpoolSame (margin + 1) (st'.heap i)) =
          rest.map (fun i => maxpoolSame (margin + 1) (st.heap i)) := by
        apply List.map_congr_left
        intro i hi
        have hlt : i < st.next := hv i (List.mem_cons_of_mem _ hi)
        have : st'.heap i = st.heap i := by
          simp only [hst']
          exact Function.update_noteq (by omega) _ _
        rw [this]
      simp only [dilateAlloc, List.map_cons]
      rw [hhead]
      refine congrArg _ ?_
      rw [← hst']
      rw [hrec, htail]

/-- C9: the generator's one-time dilation never mutates any pre-existing
label array — it only rebinds the slots of the list it was passed to
freshly allocated pooled arrays — so the `fit`-level spikes list still
references the raw labels afterwards, and a second fold's generator
(whose reference list is built from the same raw objects) again dilates
the raw labels, never re-dilating an already-dilated array. -/
theorem c9_dilation_frame (st : DilState) (ids1 ids2 : List Nat) (margin : Nat)
    (h1 : ∀ id ∈ ids1, id < st.next) (h2 : ∀ id ∈ ids2, id < st.next) :
    (∀ a, a < st.next → (dilateAlloc st ids1 margin).1.heap a = st.heap a) ∧
    ((dilateAlloc st ids1 margin).2).map (dilateAlloc st ids1 margin).1.heap =
      ids1.map (fun id => maxpoolSame (margin + 1) (st.heap id)) ∧
    (∀ a, a < st.next →
      (dilateAlloc (dilateAlloc st ids1 margin).1 ids2 margin).1.heap a =
        st.heap a) ∧
    ((dilateAlloc (dilateAlloc st ids1 margin).1 ids2 margin).2).map
        (dilateAlloc (dilateAlloc st ids1 margin).1 ids2 margin).1.heap =
      ids2.map (fun id => maxpoolSame (margin + 1) (st.heap id)) := by
  set st1 := (dilateAlloc st ids1 margin).1 with hst1
  have hle : st.next ≤ st1.next := by
    rw [hst1]; exact dilateAlloc_next_le margin ids1 st
  have hframe1 : ∀ a, a < st.next → st1.heap a = st.heap a := by
    intro a ha
    rw [hst1]
    exact dilateAlloc_frame margin ids1 st a ha
  have h2' : ∀ id ∈ ids2, id < st1.next := fun id hid =>
    lt_of_lt_of_le (h2 id hid) hle
  refine ⟨hframe1, dilateAlloc_contents margin ids1 st h1, ?_, ?_⟩
  · intro a ha
    have := dilateAlloc_frame margin ids2 st1 a (lt_of_lt_of_le ha hle)
    rw [this]
    exact hframe1 a ha
  · rw [dilateAlloc_contents margin ids2 st1 h2']
    apply List.map_congr_left
    intro id hid
    rw [hframe1 id (h2 id hid)]

/-- C9 witness: one raw label array referenced by two fold lists; both
dilations pool the raw contents and the raw cell is untouched. -/
theorem c9_dilation_frame_witness :
    (∀ a, a < 1 →
      (dilateAlloc ⟨fun _ => [0, 0, 1, 0, 0], 1⟩ [0] 1).1.heap a =
        (fun _ => ([0, 0, 1, 0, 0] : List ℚ)) a) ∧
    ((dilateAlloc ⟨fun _ => [0, 0, 1, 0, 0], 1⟩ [0] 1).2).map
        (dilateAlloc ⟨fun _ => [0, 0, 1, 0, 0], 1⟩ [0] 1).1.heap =
      ([0] : List Nat).map (fun id =>
        maxpoolSame 2 ((fun _ => ([0, 0, 1, 0, 0] : List ℚ)) id)) ∧
    (∀ a, a < 1 →
      (dilateAlloc (dilateAlloc ⟨fun _ => [0, 0, 1, 0, 0], 1⟩ [0] 1).1 [0] 1).1.heap a =
        (fun _ => ([0, 0, 1, 0, 0] : List ℚ)) a) ∧
    ((dilateAlloc (dilateAlloc ⟨fun _ => [0, 0, 1, 0, 0], 1⟩ [0] 1).1 [0] 1).2).map
        (dilateAlloc (dilateAlloc ⟨fun _ => [0, 0, 1, 0, 0], 1⟩ [0] 1).1 [0] 1).1.heap =
      ([0] : List Nat).map (fun id =>
        maxpoolSame 2 ((fun _ => ([0, 0, 1, 0, 0] : List ℚ)) id)) :=
  c9_dilation_frame ⟨fun _ => [0, 0, 1, 0, 0], 1⟩ [0] [0] 1
    (by decide) (by decide)

/-!
## Metric functions (`utils.py`)

`prec`, `reca` and `F2` sum over whole tensors (`K.sum` with no axis);
arrays are embedded as matrices and the sums as sums over all entries.
`K.round` is TensorFlow rounding (round half to even), `K.clip(x, 0, 1)`
clips into `[0, 1]`, and `K.epsilon()` is `epsK`.
-/

/-- TensorFlow `K.round`: round to nearest integer, halves to even. -/
def roundq (x : ℚ) : ℚ :=
  if x - ⌊x⌋ < 1/2 then (⌊x⌋ : ℚ)
  else if (1/2 : ℚ) < x - ⌊x⌋ then (⌊x⌋ : ℚ) + 1
  else if ⌊x⌋ % 2 = 0 then (⌊x⌋ : ℚ) else (⌊x⌋ : ℚ) + 1

/-- `K.clip(x, 0, 1)` on one entry. -/
def clip01 (x : ℚ) : ℚ := if x < 0 then 0 else if 1 < x then 1 else x

/-- `K.sum` with no axis: the sum of all entries. -/
def ksum (m : Mat) : ℚ := (m.map (fun r => r.sum)).sum

/-- Elementwise product of two arrays. -/
def kmul (a b : Mat) : Mat := List.zipWith (List.zipWith (· * ·)) a b

/-- Elementwise difference of two arrays. -/
def ksub (a b : Mat) : Mat := List.zipWith (List.zipWith (· - ·)) a b

/-- Elementwise `K.round`. -/
def kround (m : Mat) : Mat := m.map (fun r => r.map roundq)

/-- Elementwise `K.clip(·, 0, 1)`. -/
def kclip01 (m : Mat) : Mat := m.map (fun r => r.map clip01)

/-- Source `prec(yt, yp)`: `yp = K.round(yp);
K.sum(yp * yt) / (K.sum(yp) + K.epsilon())`. -/
def prec (yt yp : Mat) : ℚ :=
  ksum (kmul (kround yp) yt) / (ksum (kround yp) + epsK)

/-- Source `reca(yt, yp)`: `yp = K.round(yp); tp = K.sum(yp * yt);
fn = K.sum(K.clip(yt - yp, 0, 1));
K.sum(yp * yt) / (tp + fn + K.epsilon())`. -/
def reca (yt yp : Mat) : ℚ :=
  ksum (kmul (kround yp) yt) /
    (ksum (kmul (kround yp) yt) + ksum (kclip01 (ksub yt (kround yp))) + epsK)

/-- Source `F2(yt, yp, beta=2.0)`:
`(1 + beta**2) * ((p * r) / (beta**2 * p + r + K.epsilon()))`. -/
def F2 (yt yp : Mat) (beta : ℚ := 2) : ℚ :=
  (1 + beta ^ 2) *
    ((prec yt yp * reca yt yp) /
      (beta ^ 2 * prec yt yp + reca yt yp + epsK))

/-- Source `prec_margin(yt, yp, margin=1)`: `prec` after pooling both
arrays with window `2*margin + 1`, stride 1, `'same'`. -/
def prec_margin (yt yp : Mat) (margin : Nat := 1) : ℚ :=
  prec (maxpool1D (2 * margin + 1) yt) (maxpool1D (2 * margin + 1) yp)

/-- Source `reca_margin(yt, yp, margin=1)`. -/
def reca_margin (yt yp : Mat) (margin : Nat := 1) : ℚ :=
  reca (maxpool1D (2 * margin + 1) yt) (maxpool1D (2 * margin + 1) yp)

/-- Source `F2_margin(yt, yp, margin=1)`: `F2` (with its default
`beta = 2`) after pooling both arrays with window `2*margin + 1`. -/
def F2_margin (yt yp : Mat) (margin : Nat := 1) : ℚ :=
  F2 (maxpool1D (2 * margin + 1) yt) (maxpool1D (2 * margin + 1) yp)

/-!
### The specification's reference formulas (for the refinement claim)
-/

/-- Modelled from the spec:
`precision(yt, yp) = sum(round(yp) * yt) / (sum(round(yp)) + ε)`. -/
def precision_spec (yt yp : Mat) : ℚ :=
  ksum (kmul (kround yp) yt) / (ksum (kround yp) + epsK)

/-- Modelled from the spec: `recall(yt, yp) = sum(round(yp)*yt) /
(sum(round(yp)*yt) + sum(clip(yt - round(yp), 0, 1)) + ε)`. -/
def recall_spec (yt yp : Mat) : ℚ :=
  ksum (kmul (kround yp) yt) /
    (ksum (kmul (kround yp) yt) + ksum (kclip01 (ksub yt (kround yp))) + epsK)

/-- Modelled from the spec:
`F2(yt, yp, beta=2) = (1+beta²) * p*r / (beta²*p + r + ε)`. -/
def F2_formula_spec (yt yp : Mat) (beta : ℚ := 2) : ℚ :=
  (1 + beta ^ 2) * precision_spec yt yp * recall_spec yt yp /
    (beta ^ 2 * precision_spec yt yp + recall_spec yt yp + epsK)

/-- C6: the source metric functions compute exactly the reference
formulas of the specification, with `beta = 2` as the default and
`ε = 1e-7` a fixed positive constant much smaller than 1. -/
theorem c6_metric_formulas (yt yp : Mat) :
    prec yt yp = precision_spec yt yp ∧
    reca yt yp = recall_spec yt yp ∧
    (∀ beta : ℚ, F2 yt yp beta = F2_formula_spec yt yp beta) ∧
    F2 yt yp = F2_formula_spec yt yp ∧
    (0 < epsK ∧ epsK < 1 / 1000000) := by
  refine ⟨rfl, rfl, ?_, ?_, by norm_num [epsK], by norm_num [epsK]⟩
  · intro beta
    rw [F2, F2_formula_spec, precision_spec, recall_spec, ← prec, ← reca]
    ring
  · rw [F2, F2_formula_spec, precision_spec, recall_spec, ← prec, ← reca]
    ring

/-!
### Range and perfect-match behaviour of the metrics (C5)
-/

/-- A sequence of 0/1 values. -/
def isBinary (r : List ℚ) : Prop := ∀ v ∈ r, v = 0 ∨ v = 1

/-- An array of 0/1 values. -/
def isBinaryM (m : Mat) : Prop := ∀ r ∈ m, isBinary r

theorem roundq_zero : roundq 0 = 0 := by
  norm_num [roundq]

theorem roundq_one : roundq 1 = 1 := by
  norm_num [roundq]

theorem clip01_nonneg (v : ℚ) : 0 ≤ clip01 v := by
  unfold clip01
  split_ifs with h1 h2
  · exact le_refl 0
  · norm_num
  · exact le_of_not_lt h1

theorem epsK_pos : (0 : ℚ) < epsK := by norm_num [epsK]

theorem kround_binary (m : Mat) (hm : isBinaryM m) : kround m = m := by
  rw [kround]
  have hrow : ∀ r ∈ m, r.map roundq = r := by
    intro r hr
    calc r.map roundq = r.map id := by
          apply List.map_congr_left
          intro v hv
          rcases hm r hr v hv with h | h <;> simp [h, roundq_zero, roundq_one]
      _ = r := List.map_id r
  calc m.map (fun r => r.map roundq) = m.map id := by
        apply List.map_congr_left
        intro r hr
        rw [hrow r hr]
        rfl
    _ = m := List.map_id m

theorem binary_nonneg {v : ℚ} (h : v = 0 ∨ v = 1) : 0 ≤ v := by
  rcases h with h | h <;> simp [h]

theorem binary_le_one {v : ℚ} (h : v = 0 ∨ v = 1) : v ≤ 1 := by
  rcases h with h | h <;> simp [h]

theorem ksum_nonneg_of (m : Mat) (h : ∀ r ∈ m, ∀ v ∈ r, 0 ≤ v) :
    0 ≤ ksum m := by
  rw [ksum]
  apply List.sum_nonneg
  intro s hs
  rcases List.mem_map.mp hs with ⟨r, hr, rfl⟩
  exact List.sum_nonneg (h r hr)

theorem row_tp_bounds :
    ∀ (a b : List ℚ), (∀ v ∈ a, v = 0 ∨ v = 1) → (∀ v ∈ b, v = 0 ∨ v = 1) →
      0 ≤ (List.zipWith (· * ·) a b).sum ∧
        (List.zipWith (· * ·) a b).sum ≤ a.sum := by
  intro a
  induction a with
  | nil =>
      intro b _ _
      simp
  | cons x a ih =>
      intro b ha hb
      cases b with
      | nil =>
          refine ⟨by simp, ?_⟩
          simp only [List.zipWith_nil_right, List.sum_nil]
          exact List.sum_nonneg (fun v hv => binary_nonneg (ha v hv))
      | cons y b =>
          have hx := ha x (List.mem_cons_self _ _)
          have hy := hb y (List.mem_cons_self _ _)
          have hrec := ih b (fun v hv => ha v (List.mem_cons_of_mem _ hv))
            (fun v hv => hb v (List.mem_cons_of_mem _ hv))
          simp only [List.zipWith_cons_cons, List.sum_cons]
          constructor
          · have hxy : 0 ≤ x * y := mul_nonneg (binary_nonneg hx) (binary_nonneg hy)
            linarith [hrec.1]
          · have hxy : x * y ≤ x :=
              mul_le_of_le_one_right (binary_nonneg hx) (binary_le_one hy)
            linarith [hrec.2]

theorem mat_tp_bounds :
    ∀ (yp yt : Mat), isBinaryM yp → isBinaryM yt →
      0 ≤ ksum (kmul yp yt) ∧ ksum (kmul yp yt) ≤ ksum yp := by
  intro yp
  induction yp with
  | nil =>
      intro yt _ _
      simp [ksum, kmul]
  | cons p P ih =>
      intro yt hyp hyt
      cases yt with
      | nil =>
          refine ⟨by simp [ksum, kmul], ?_⟩
          simp only [kmul, List.zipWith_nil_right, ksum, List.map_nil,
            List.sum_nil, List.map_cons, List.sum_cons]
          have h1 : 0 ≤ p.sum :=
            List.sum_nonneg (fun v hv =>
              binary_nonneg (hyp p (List.mem_cons_self _ _) v hv))
          have h2 : 0 ≤ (P.map (fun r => r.sum)).sum := by
            apply List.sum_nonneg
            intro s hs
            rcases List.mem_map.mp hs with ⟨r, hr, rfl⟩
            exact List.sum_nonneg (fun v hv =>
              binary_nonneg (hyp r (List.mem_cons_of_mem _ hr) v hv))
          linarith
      | cons t T =>
          have hrow := row_tp_bounds p t (hyp p (List.mem_cons_self _ _))
            (hyt t (List.mem_cons_self _ _))
          have hrec := ih T (fun r hr => hyp r (List.mem_cons_of_mem _ hr))
            (fun r hr => hyt r (List.mem_cons_of_mem _ hr))
          simp only [kmul, List.zipWith_cons_cons, ksum, List.map_cons,
            List.sum_cons] at hrec ⊢
          constructor
          · linarith [hrow.1, hrec.1]
          · linarith [hrow.2, hrec.2]

theorem ksum_kclip01_nonneg (m : Mat) : 0 ≤ ksum (kclip01 m) := by
  apply ksum_nonneg_of
  intro r hr v hv
  rcases List.mem_map.mp ((by simpa [kclip01] using hr) :
    r ∈ m.map (fun s => s.map clip01)) with ⟨s, _, rfl⟩
  rcases List.mem_map.mp hv with ⟨w, _, rfl⟩
  exact clip01_nonneg w

theorem prec_bounds (yt yp : Mat) (hyt : isBinaryM yt) (hyp : isBinaryM yp) :
    0 ≤ prec yt yp ∧ prec yt yp ≤ 1 := by
  rw [prec, kround_binary yp hyp]
  have hb := mat_tp_bounds yp yt hyp hyt
  have hP : 0 ≤ ksum yp :=
    ksum_nonneg_of yp (fun r hr v hv => binary_nonneg (hyp r hr v hv))
  have hden : 0 < ksum yp + epsK := by linarith [epsK_pos]
  exact ⟨div_nonneg hb.1 hden.le,
    (div_le_one hden).mpr (by linarith [hb.2, epsK_pos])⟩

theorem reca_bounds (yt yp : Mat) (hyt : isBinaryM yt) (hyp : isBinaryM yp) :
    0 ≤ reca yt yp ∧ reca yt yp ≤ 1 := by
  rw [reca, kround_binary yp hyp]
  have htp := (mat_tp_bounds yp yt hyp hyt).1
  have hfn := ksum_kclip01_nonneg (ksub yt yp)
  have hden : 0 < ksum (kmul yp yt) + ksum (kclip01 (ksub yt yp)) + epsK := by
    linarith [epsK_pos]
  exact ⟨div_nonneg htp hden.le,
    (div_le_one hden).mpr (by linarith [epsK_pos])⟩

theorem F2_combo_bounds (p r : ℚ) (hp0 : 0 ≤ p) (hp1 : p ≤ 1)
    (hr0 : 0 ≤ r) (hr1 : r ≤ 1) :
    0 ≤ (1 + (2 : ℚ) ^ 2) * (p * r / ((2 : ℚ) ^ 2 * p + r + epsK)) ∧
      (1 + (2 : ℚ) ^ 2) * (p * r / ((2 : ℚ) ^ 2 * p + r + epsK)) ≤ 1 := by
  have h4 : ((2 : ℚ) ^ 2) = 4 := by norm_num
  have hden : 0 < (2 : ℚ) ^ 2 * p + r + epsK := by
    rw [h4]
    linarith [epsK_pos]
  constructor
  · exact mul_nonneg (by norm_num) (div_nonneg (mul_nonneg hp0 hr0) hden.le)
  · rw [← mul_div_assoc, div_le_one hden]
    have h1 : p * r ≤ p := mul_le_of_le_one_right hp0 hr1
    have h2 : p * r ≤ r := mul_le_of_le_one_left hr0 hp1
    rw [h4]
    nlinarith [epsK_pos]

theorem F2_bounds (yt yp : Mat) (hyt : isBinaryM yt) (hyp : isBinaryM yp) :
    0 ≤ F2 yt yp ∧ F2 yt yp ≤ 1 := by
  obtain ⟨hp0, hp1⟩ := prec_bounds yt yp hyt hyp
  obtain ⟨hr0, hr1⟩ := reca_bounds yt yp hyt hyp
  exact F2_combo_bounds (prec yt yp) (reca yt yp) hp0 hp1 hr0 hr1

theorem kmul_self_binary (m : Mat) (hm : isBinaryM m) : kmul m m = m := by
  rw [kmul, List.zipWith_same]
  calc m.map (fun r => List.zipWith (· * ·) r r)
      = m.map id := by
        apply List.map_congr_left
        intro r hr
        rw [List.zipWith_same]
        calc r.map (fun v => v * v) = r.map id := by
              apply List.map_congr_left
              intro v hv
              rcases hm r hr v hv with h | h <;> simp [h]
          _ = r := List.map_id r
    _ = m := List.map_id m

theorem ksum_kclip01_ksub_self (m : Mat) : ksum (kclip01 (ksub m m)) = 0 := by
  have h1 : ksub m m = m.map (fun r => r.map (fun v => v - v)) := by
    rw [ksub, List.zipWith_same]
    apply List.map_congr_left
    intro r _
    rw [List.zipWith_same]
  rw [h1, kclip01, List.map_map, ksum, List.map_map]
  apply List.sum_eq_zero
  intro s hs
  rcases List.mem_map.mp hs with ⟨r, _, rfl⟩
  simp only [Function.comp_apply, List.map_map]
  apply List.sum_eq_zero
  intro v hv
  rcases List.mem_map.mp hv with ⟨w, _, rfl⟩
  simp [clip01]

/-- C5 (counterexample): on the perfectly matching binary pair
`yt = yp = [[1]]` none of the three metrics equals exactly 1.0 — the
`K.epsilon()` fuzz term keeps each strictly below 1. -/
theorem c5_counterexample :
    prec [[1]] [[1]] ≠ 1 ∧ reca [[1]] [[1]] ≠ 1 ∧ F2 [[1]] [[1]] ≠ 1 := by
  refine ⟨?_, ?_, ?_⟩ <;>
    norm_num [prec, reca, F2, ksum, kmul, ksub, kclip01, kround, clip01,
      roundq_one, epsK]

/-- C5 (amended): for binary equal-shape arrays the three metrics lie in
`[0, 1]`; when `yp = yt` with at least one positive, precision and recall
both equal `S / (S + ε)` for `S` the positive count — strictly below 1 —
and `F2` is strictly below 1 as well; none equals exactly 1.0. -/
theorem c5_amended (yt yp : Mat) (hyt : isBinaryM yt) (hyp : isBinaryM yp) :
    (0 ≤ prec yt yp ∧ prec yt yp ≤ 1) ∧
    (0 ≤ reca yt yp ∧ reca yt yp ≤ 1) ∧
    (0 ≤ F2 yt yp ∧ F2 yt yp ≤ 1) ∧
    (yp = yt → 0 < ksum yt →
      prec yt yp = ksum yt / (ksum yt + epsK) ∧
      reca yt yp = ksum yt / (ksum yt + epsK) ∧
      prec yt yp < 1 ∧ reca yt yp < 1 ∧ F2 yt yp < 1) := by
  refine ⟨prec_bounds yt yp hyt hyp, reca_bounds yt yp hyt hyp,
    F2_bounds yt yp hyt hyp, ?_⟩
  intro hEq hS
  subst hEq
  have hry : kround yp = yp := kround_binary yp hyp
  have hprec : prec yp yp = ksum yp / (ksum yp + epsK) := by
    rw [prec, hry, kmul_self_binary yp hyp]
  have hreca : reca yp yp = ksum yp / (ksum yp + epsK) := by
    rw [reca, hry, kmul_self_binary yp hyp, ksum_kclip01_ksub_self, add_zero]
  have hden : 0 < ksum yp + epsK := by linarith [epsK_pos]
  have hq1 : ksum yp / (ksum yp + epsK) < 1 := by
    rw [div_lt_one hden]
    linarith [epsK_pos]
  have hq0 : 0 < ksum yp / (ksum yp + epsK) := div_pos hS hden
  refine ⟨hprec, hreca, by rw [hprec]; exact hq1, by rw [hreca]; exact hq1, ?_⟩
  rw [F2, hprec, hreca]
  set q : ℚ := ksum yp / (ksum yp + epsK) with hqdef
  have hqq : q * q < q := by nlinarith
  have hden2 : 0 < (2 : ℚ) ^ 2 * q + q + epsK := by nlinarith [epsK_pos]
  rw [← mul_div_assoc, div_lt_one hden2]
  nlinarith [epsK_pos]

/-- C5 witness: the amended statement at `yt = yp = [[1]]`. -/
theorem c5_amended_witness :
    (0 ≤ prec [[1]] [[1]] ∧ prec [[1]] [[1]] ≤ 1) ∧
    (0 ≤ reca [[1]] [[1]] ∧ reca [[1]] [[1]] ≤ 1) ∧
    (0 ≤ F2 [[1]] [[1]] ∧ F2 [[1]] [[1]] ≤ 1) ∧
    (([[1]] : Mat) = [[1]] → 0 < ksum [[1]] →
      prec [[1]] [[1]] = ksum [[1]] / (ksum [[1]] + epsK) ∧
      reca [[1]] [[1]] = ksum [[1]] / (ksum [[1]] + epsK) ∧
      prec [[1]] [[1]] < 1 ∧ reca [[1]] [[1]] < 1 ∧ F2 [[1]] [[1]] < 1) :=
  c5_amended [[1]] [[1]] (by simp [isBinaryM, isBinary])
    (by simp [isBinaryM, isBinary])

/-!
### Margin-tolerance (non-)monotonicity of `F2_margin` (C3)
-/

theorem le_foldr_max (b : ℚ) : ∀ (l : List ℚ), b ≤ l.foldr max b := by
  intro l
  induction l with
  | nil => exact le_refl b
  | cons x l ih => exact le_trans ih (le_max_right x _)

theorem foldr_max_le (b c : ℚ) :
    ∀ (l : List ℚ), b ≤ c → (∀ v ∈ l, v ≤ c) → l.foldr max b ≤ c := by
  intro l
  induction l with
  | nil => intro hb _; exact hb
  | cons x l ih =>
      intro hb hl
      exact max_le (hl x (List.mem_cons_self _ _))
        (ih hb (fun v hv => hl v (List.mem_cons_of_mem _ hv)))

theorem mem_le_foldr_max (b v : ℚ) :
    ∀ (l : List ℚ), v ∈ l → v ≤ l.foldr max b := by
  intro l
  induction l with
  | nil => intro h; simp at h
  | cons x l ih =>
      intro hv
      rcases List.mem_cons.mp hv with h | h
      · rw [h]
        exact le_max_left x _
      · exact le_trans (ih h) (le_max_right x _)

theorem foldr_max_binary (b : ℚ) (hb : b = 0 ∨ b = 1) :
    ∀ (l : List ℚ), (∀ v ∈ l, v = 0 ∨ v = 1) →
      (l.foldr max b = 0 ∨ l.foldr max b = 1) := by
  intro l
  induction l with
  | nil => intro _; exact hb
  | cons x l ih =>
      intro hl
      have hx := hl x (List.mem_cons_self _ _)
      have hrec := ih (fun v hv => hl v (List.mem_cons_of_mem _ hv))
      rcases hx with hx | hx <;> rcases hrec with h | h <;>
        rw [List.foldr_cons, hx, h] <;> norm_num [max_def]

theorem maxpoolSame_binary (k : Nat) (x : List ℚ) (hx : isBinary x) :
    isBinary (maxpoolSame k x) := by
  intro v hv
  unfold maxpoolSame at hv
  rcases List.mem_map.mp hv with ⟨i, hi, rfl⟩
  have hi' : i < x.length := List.mem_range.mp hi
  apply foldr_max_binary
  · rw [List.getD_eq_getElem x 0 hi']
    exact hx _ (List.getElem_mem hi')
  · intro w hw
    rcases List.mem_map.mp hw with ⟨j, hj, rfl⟩
    have hj' : j < x.length := List.mem_range.mp (List.mem_filter.mp hj).1
    rw [List.getD_eq_getElem x 0 hj']
    exact hx _ (List.getElem_mem hj')

theorem maxpool1D_binary (k : Nat) (m : Mat) (hm : isBinaryM m) :
    isBinaryM (maxpool1D k m) := by
  intro r hr
  rcases List.mem_map.mp hr with ⟨s, hs, rfl⟩
  exact maxpoolSame_binary k s (hm s hs)

theorem getD_maxpoolSame (k : Nat) (x : List ℚ) (i : Nat) (hi : i < x.length) :
    (maxpoolSame k x).getD i 0 =
      (((List.range x.length).filter
          (fun j => i ≤ j + (k - 1) / 2 && j + (k - 1) / 2 ≤ i + (k - 1))).map
        (fun j => x.getD j 0)).foldr max (x.getD i 0) := by
  have hlen : i < (maxpoolSame k x).length := by
    rw [maxpoolSame_length]
    exact hi
  rw [List.getD_eq_getElem _ 0 hlen]
  unfold maxpoolSame
  rw [List.getElem_map, List.getElem_range]

theorem maxpoolSame_mono (k1 k2 : Nat) (hk : k1 ≤ k2) (x : List ℚ)
    (i : Nat) (hi : i < x.length) :
    (maxpoolSame k1 x).getD i 0 ≤ (maxpoolSame k2 x).getD i 0 := by
  rw [getD_maxpoolSame k1 x i hi, getD_maxpoolSame k2 x i hi]
  apply foldr_max_le
  · exact le_foldr_max _ _
  · intro v hv
    rcases List.mem_map.mp hv with ⟨j, hj, rfl⟩
    have hj1 := List.mem_filter.mp hj
    have hjr : j < x.length := List.mem_range.mp hj1.1
    have hcond : i ≤ j + (k1 - 1) / 2 ∧ j + (k1 - 1) / 2 ≤ i + (k1 - 1) := by
      have := hj1.2
      simpa using this
    have hcond2 : (i ≤ j + (k2 - 1) / 2 && j + (k2 - 1) / 2 ≤ i + (k2 - 1)) = true := by
      simp only [Bool.and_eq_true, decide_eq_true_eq]
      omega
    apply mem_le_foldr_max
    apply List.mem_map_of_mem
    exact List.mem_filter.mpr ⟨hj1.1, hcond2⟩

theorem pool_forall₂ (k1 k2 : Nat) (hk : k1 ≤ k2) (r : List ℚ)
    (hr : isBinary r) :
    List.Forall₂ (fun x y => 0 ≤ x ∧ x ≤ y)
      (maxpoolSame k1 r) (maxpoolSame k2 r) := by
  rw [List.forall₂_iff_get]
  refine ⟨by rw [maxpoolSame_length, maxpoolSame_length], ?_⟩
  intro i h1 h2
  have hir : i < r.length := by
    rw [maxpoolSame_length] at h1
    exact h1
  constructor
  · exact binary_nonneg
      (maxpoolSame_binary k1 r hr _ (List.get_mem _ i h1))
  · have := maxpoolSame_mono k1 k2 hk r i hir
    rw [List.getD_eq_getElem _ 0 h1, List.getD_eq_getElem _ 0 h2] at this
    simpa [List.get_eq_getElem] using this

theorem sum_zipWith_mul_mono {a1 a2 : List ℚ}
    (h1 : List.Forall₂ (fun x y => 0 ≤ x ∧ x ≤ y) a1 a2) :
    ∀ {b1 b2 : List ℚ}, List.Forall₂ (fun x y => 0 ≤ x ∧ x ≤ y) b1 b2 →
      (List.zipWith (· * ·) a1 b1).sum ≤ (List.zipWith (· * ·) a2 b2).sum := by
  induction h1 with
  | nil =>
      intro b1 b2 _
      simp
  | @cons x y t1 t2 hxy htail ih =>
      intro b1 b2 h2
      cases h2 with
      | nil => simp
      | @cons u v s1 s2 huv htail2 =>
          simp only [List.zipWith_cons_cons, List.sum_cons]
          have hhead : x * u ≤ y * v :=
            mul_le_mul hxy.2 huv.2 huv.1 (le_trans hxy.1 hxy.2)
          have hrest := ih htail2
          linarith

theorem tp_pool_mono (k1 k2 : Nat) (hk : k1 ≤ k2) :
    ∀ (yp yt : Mat), isBinaryM yp → isBinaryM yt →
      ksum (kmul (maxpool1D k1 yp) (maxpool1D k1 yt)) ≤
        ksum (kmul (maxpool1D k2 yp) (maxpool1D k2 yt)) := by
  intro yp
  induction yp with
  | nil =>
      intro yt _ _
      simp [maxpool1D, kmul, ksum]
  | cons p P ih =>
      intro yt hyp hyt
      cases yt with
      | nil => simp [maxpool1D, kmul, ksum]
      | cons t T =>
          have hhead := sum_zipWith_mul_mono
            (pool_forall₂ k1 k2 hk p (hyp p (List.mem_cons_self _ _)))
            (pool_forall₂ k1 k2 hk t (hyt t (List.mem_cons_self _ _)))
          have hrest := ih T (fun r hr => hyp r (List.mem_cons_of_mem _ hr))
            (fun r hr => hyt r (List.mem_cons_of_mem _ hr))
          simp only [maxpool1D, List.map_cons, kmul, List.zipWith_cons_cons,
            ksum, List.sum_cons] at hrest ⊢
          linarith

/-- The true-positive mass inside `prec` after the `2*margin + 1` pooling
of the `*_margin` metrics: `K.sum(K.round(pooled yp) * pooled yt)`. -/
def tpMargin (yt yp : Mat) (margin : Nat) : ℚ :=
  ksum (kmul (kround (maxpool1D (2 * margin + 1) yp))
    (maxpool1D (2 * margin + 1) yt))

/-- C3 (counterexample): the margin-tolerant F2 score is not monotone in
the margin.  For `yt = [[1,0,0,0,1,0]]`, `yp = [[1,0,0,0,0,0]]` the score
with `margin = 1` is strictly below the score with `margin = 0`: the
matched spike at the sequence start has its dilated stripe clipped by the
boundary while the unmatched true spike's stripe grows on both sides,
driving recall down. -/
theorem c3_counterexample :
    F2_margin [[1, 0, 0, 0, 1, 0]] [[1, 0, 0, 0, 0, 0]] 1 <
      F2_margin [[1, 0, 0, 0, 1, 0]] [[1, 0, 0, 0, 0, 0]] 0 := by
  have h1t : maxpool1D (2 * 1 + 1) [[1, 0, 0, 0, 1, 0]] =
      [[1, 1, 0, 1, 1, 1]] := by decide
  have h1p : maxpool1D (2 * 1 + 1) [[1, 0, 0, 0, 0, 0]] =
      [[1, 1, 0, 0, 0, 0]] := by decide
  have h0t : maxpool1D (2 * 0 + 1) [[1, 0, 0, 0, 1, 0]] =
      [[1, 0, 0, 0, 1, 0]] := by decide
  have h0p : maxpool1D (2 * 0 + 1) [[1, 0, 0, 0, 0, 0]] =
      [[1, 0, 0, 0, 0, 0]] := by decide
  simp only [F2_margin]
  rw [h1t, h1p, h0t, h0p]
  norm_num [F2, prec, reca, ksum, kmul, ksub, kclip01, kround, clip01,
    roundq_one, roundq_zero, epsK]

/-- C3 (amended): widening the margin is monotone at the level of the
pooled arrays — pooling with a larger window never decreases any entry —
and therefore the margin-tolerant true-positive count
`K.sum(round(pooled yp) * pooled yt)` never decreases; the F2 score built
from it, however, is not monotone (see the counterexample). -/
theorem c3_amended (yt yp : Mat) (m1 m2 : Nat) (h12 : m1 ≤ m2)
    (hyt : isBinaryM yt) (hyp : isBinaryM yp) :
    tpMargin yt yp m1 ≤ tpMargin yt yp m2 := by
  have hk : 2 * m1 + 1 ≤ 2 * m2 + 1 := by omega
  rw [tpMargin, tpMargin,
    kround_binary _ (maxpool1D_binary _ yp hyp),
    kround_binary _ (maxpool1D_binary _ yp hyp)]
  exact tp_pool_mono (2 * m1 + 1) (2 * m2 + 1) hk yp yt hyp hyt

/-- C3 witness: the amended statement at the counterexample pair and
margins 0 ≤ 1. -/
theorem c3_amended_witness :
    tpMargin [[1, 0, 0, 0, 1, 0]] [[1, 0, 0, 0, 0, 0]] 0 ≤
      tpMargin [[1, 0, 0, 0, 1, 0]] [[1, 0, 0, 0, 0, 0]] 1 :=
  c3_amended [[1, 0, 0, 0, 1, 0]] [[1, 0, 0, 0, 0, 0]] 0 1 (by omega)
    (by simp [isBinaryM, isBinary])
    (by simp [isBinaryM, isBinary])

end DeepCalcium
